import Mathlib

/-
Verification development for the naabal BIG-archive library.

The Python source is shallowly embedded: byte strings become `List Nat`
(each element a byte value), Python unbounded integers become `Nat`
(with `Int` where Python subtraction can go negative), stateful methods
become explicit state-passing functions, and fallible code returns
`Option` or `Except`.
-/

set_option maxRecDepth 16384

namespace Naabal

/-- Modelled from the spec: `COMBINE_BYTES` lives in the module
`naabal.util.c_macros`, which is not part of the sources; the spec
says key material is consumed as sequences of 4-byte little-endian
words, so the combiner folds bytes little-endian first. -/
def COMBINE_BYTES (bs : List Nat) : Nat :=
  bs.foldr (fun b acc => b + 256 * acc) 0

/-- Embedding of `split_by` from `naabal/util/__init__.py`: the slice
`iterable[pos:pos+chunk_size]` for each `pos` in
`xrange(0, len(iterable), chunk_size)`; that range holds
`ceil(len / chunk_size)` positions stepping by `chunk_size`.  The
Python code raises on a zero chunk size; here the position range is
empty there (never exercised). -/
def split_by {α : Type} (iterable : List α) (chunk_size : Nat) : List (List α) :=
  (List.range' 0 ((iterable.length + chunk_size - 1) / chunk_size) chunk_size).map
    fun pos => (iterable.drop pos).take chunk_size

/-- Embedding of the `ROTL` lambda from `naabal/util/__init__.py`:
`(uint32 << bits) | (uint32 >> (32 - bits))`.  Note the Python source
does not truncate the result to 32 bits. -/
def ROTL (uint32 bits : Nat) : Nat :=
  (uint32 <<< bits) ||| (uint32 >>> (32 - bits))

/-- Embedding of the `SPLIT_TO_BYTES` lambda from
`naabal/util/__init__.py`: `(uint32 & (0xFF << s)) >> s` for
`s in range(0, 32, 8)`. -/
def SPLIT_TO_BYTES (uint32 : Nat) : List Nat :=
  [0, 8, 16, 24].map fun s => (uint32 &&& (0xFF <<< s)) >>> s

/-- Embedding of the `CAST_TO_CHAR` lambda from
`naabal/util/__init__.py`: `uint32 & 0xFF`. -/
def CAST_TO_CHAR (uint32 : Nat) : Nat := uint32 &&& 0xFF

/-- Embedding of `GearboxCrypt._combine_keys` from
`naabal/util/gbx_crypt.py`.  The local and global keys are split into
4-byte words; for each 4-byte block of the combined key the running
value `c` starts from the corresponding local word, and each of the 4
sub-rounds recomputes the byte decomposition of `ROTL(c + data_size, 8)`,
runs 4 substitution rounds through the global word table, and stores the
low byte of `c`.  The Python `bytearray` is modelled by a `List Nat`
updated with `List.set`. -/
def combine_keys (data_size : Nat) (local_key global_key : List Nat) : List Nat :=
  let key_size := local_key.length
  let local_words := (split_by local_key 4).map COMBINE_BYTES
  let global_words := (split_by global_key 4).map COMBINE_BYTES
  (List.range ((key_size + 3) / 4)).foldl (fun combined_key blk =>
    let i := 4 * blk
    let c0 := local_words.getD (i / 4) 0
    ((List.range 4).foldl (fun st b =>
      let bytes := SPLIT_TO_BYTES (ROTL (st.1 + data_size) 8)
      let c := (List.range 4).foldl (fun c j =>
        global_words.getD (CAST_TO_CHAR (c ^^^ bytes.getD j 0)) 0 ^^^ (c >>> 8)) st.1
      (c, st.2.set (i + b) (CAST_TO_CHAR c))) (c0, combined_key)).2)
    (List.replicate key_size 0)

/-- State of a `GearboxCrypt` object from `naabal/util/gbx_crypt.py`:
the constructor arguments that survive as instance attributes. -/
structure GearboxCrypt where
  chunk_size : Nat
  data_size : Nat
  key_size : Nat
  encryption_key : List Nat
deriving DecidableEq, Repr

/-- Embedding of `GearboxCrypt.__init__`: stores the chunk size and data
size, takes the key size from the local key, and derives the combined
encryption key. -/
def GearboxCrypt.init (data_size : Nat) (local_key global_key : List Nat)
    (chunk_size : Nat) : GearboxCrypt :=
  { chunk_size := chunk_size
    data_size := data_size
    key_size := local_key.length
    encryption_key := combine_keys data_size local_key global_key }

/-- Embedding of `GearboxCrypt._key_stream`: yields
`key[i % key_size]` for `i` in `[start_pos, start_pos + length)`. -/
def GearboxCrypt.key_stream (g : GearboxCrypt) (length start_pos : Nat) : List Nat :=
  (List.range' start_pos length).map fun i =>
    g.encryption_key.getD (i % g.key_size) 0

/-- Embedding of `GearboxCrypt.decrypt`: bytewise
`0xFF & (c + k)` of the data against the key stream. -/
def GearboxCrypt.decrypt (g : GearboxCrypt) (data : List Nat) (offset : Nat) : List Nat :=
  List.zipWith (fun c k => 0xFF &&& (c + k)) data (g.key_stream data.length offset)

/-- Embedding of `GearboxCrypt.encrypt`: bytewise `0xFF & (c - k)`.
Python subtraction can go negative and `0xFF &` of a negative int is the
nonnegative residue mod 256, so the combination is modelled over `Int`. -/
def GearboxCrypt.encrypt (g : GearboxCrypt) (data : List Nat) (offset : Nat) : List Nat :=
  List.zipWith (fun (c k : Nat) => (((c : Int) - (k : Int)) % 256).toNat) data
    (g.key_stream data.length offset)

/-- Loop of `GearboxCrypt.decrypt_stream`: read a chunk of
`chunk_size` bytes, decrypt it at the running offset, and continue.  A
zero chunk size makes the Python `while chunk:` loop exit immediately
(`read(0)` returns an empty chunk). -/
def GearboxCrypt.decrypt_stream_loop (g : GearboxCrypt) (data : List Nat)
    (offset : Nat) : List Nat :=
  if h : data = [] ∨ g.chunk_size = 0 then []
  else
    g.decrypt (data.take g.chunk_size) offset ++
      g.decrypt_stream_loop (data.drop g.chunk_size)
        (offset + (data.take g.chunk_size).length)
termination_by data.length
decreasing_by
  simp only [not_or] at h
  simp only [List.length_drop]
  rcases data with _ | ⟨a, rest⟩
  · exact absurd rfl h.1
  · simp only [List.length_cons]; omega

/-- Embedding of `GearboxCrypt.decrypt_stream`: the offset argument is
advanced by the input buffer position before chunking starts. -/
def GearboxCrypt.decrypt_stream (g : GearboxCrypt) (input : List Nat)
    (pos offset : Nat) : List Nat :=
  g.decrypt_stream_loop (input.drop pos) (offset + pos)

/-- Loop of `GearboxCrypt.encrypt_stream`, mirroring the decrypt loop. -/
def GearboxCrypt.encrypt_stream_loop (g : GearboxCrypt) (data : List Nat)
    (offset : Nat) : List Nat :=
  if h : data = [] ∨ g.chunk_size = 0 then []
  else
    g.encrypt (data.take g.chunk_size) offset ++
      g.encrypt_stream_loop (data.drop g.chunk_size)
        (offset + (data.take g.chunk_size).length)
termination_by data.length
decreasing_by
  simp only [not_or] at h
  simp only [List.length_drop]
  rcases data with _ | ⟨a, rest⟩
  · exact absurd rfl h.1
  · simp only [List.length_cons]; omega

/-- Embedding of `GearboxCrypt.encrypt_stream`. -/
def GearboxCrypt.encrypt_stream (g : GearboxCrypt) (input : List Nat)
    (pos offset : Nat) : List Nat :=
  g.encrypt_stream_loop (input.drop pos) (offset + pos)

/-!
Claim-side definitions for the key schedule.  These follow the words of
the specification, not the code: per-byte index formulas, a genuine
32-bit rotate, and arithmetic (div and mod) instead of bit tricks.
-/

/-- A true 32-bit rotate-left by 8: the value is truncated to 32 bits,
its low 24 bits move up by one byte and its top byte wraps around. -/
def rotl32 (v : Nat) : Nat :=
  (v % 4294967296 * 256) % 4294967296 + v % 4294967296 / 16777216

/-- Little-endian decomposition of the low 4 bytes of a value. -/
def le_bytes (v : Nat) : List Nat :=
  [v % 256, v / 256 % 256, v / 65536 % 256, v / 16777216 % 256]

/-- Word `i` of a key viewed as a sequence of 4-byte little-endian
words. -/
def word_at (key : List Nat) (i : Nat) : Nat :=
  COMBINE_BYTES ((key.drop (4 * i)).take 4)

/-- One sub-round of the key schedule as the specification describes
it: decompose the rotated sum into 4 bytes, then run 4 inner rounds
`c = table[low_byte(c XOR byte_j)] XOR (c >> 8)`.  The rotate is a
parameter so the claimed 32-bit rotate and the rotate the code actually
performs can both be plugged in. -/
def schedule_round (data_size : Nat) (table : Nat → Nat) (rot : Nat → Nat)
    (c : Nat) : Nat :=
  let bytes := le_bytes (rot (c + data_size))
  let inner := fun c j => table ((c ^^^ bytes.getD j 0) % 256) ^^^ c / 256
  inner (inner (inner (inner c 0) 1) 2) 3

/-- The combined key as the specification describes it, byte by byte:
byte `p` belongs to block `p / 4` and sub-round `p % 4`, so it is the
low byte of `p % 4 + 1` applications of the sub-round function to the
local key word of its block. -/
def key_schedule (data_size : Nat) (local_key global_key : List Nat)
    (rot : Nat → Nat) : List Nat :=
  (List.range local_key.length).map fun p =>
    (schedule_round data_size (word_at global_key) rot)^[p % 4 + 1]
      (word_at local_key (p / 4)) % 256

/-- Concrete global key with 256 words, word `k` holding value `k`. -/
def cexGlobal : List Nat := (List.range 256).flatMap fun k => [k, 0, 0, 0]

theorem getD_split_map (key : List Nat) (i : Nat) :
    ((split_by key 4).map COMBINE_BYTES).getD i 0 = word_at key i := by
  rw [split_by, word_at, List.map_map]
  by_cases h : i < (key.length + 4 - 1) / 4
  · rw [List.getD_eq_getElem _ _ (by simpa using h)]
    simp [List.getElem_map, List.getElem_range']
  · rw [List.getD_eq_default _ _ (by simpa using h)]
    have hdrop : key.drop (4 * i) = [] := List.drop_eq_nil_of_le (by omega)
    rw [hdrop]
    simp [COMBINE_BYTES]

theorem CAST_TO_CHAR_eq_mod (x : Nat) : CAST_TO_CHAR x = x % 256 := by
  have h := Nat.and_pow_two_sub_one_eq_mod x 8
  norm_num at h
  simpa [CAST_TO_CHAR] using h

theorem and_shift_mask (y s : Nat) :
    (y &&& (0xFF <<< s)) >>> s = y / 2 ^ s % 256 := by
  have h255 : (0xFF : Nat) = 2 ^ 8 - 1 := by norm_num
  have h256 : (256 : Nat) = 2 ^ 8 := by norm_num
  rw [h255, h256, ← Nat.shiftRight_eq_div_pow]
  apply Nat.eq_of_testBit_eq
  intro i
  rw [Nat.testBit_shiftRight, Nat.testBit_and, Nat.testBit_shiftLeft,
    Nat.testBit_two_pow_sub_one, Nat.testBit_mod_two_pow, Nat.testBit_shiftRight]
  simp only [ge_iff_le, Nat.le_add_right, decide_True, Bool.true_and,
    Nat.add_sub_cancel_left]
  exact Bool.and_comm _ _

theorem SPLIT_TO_BYTES_eq_le_bytes (y : Nat) :
    SPLIT_TO_BYTES y = le_bytes y := by
  simp only [SPLIT_TO_BYTES, le_bytes, List.map_cons, List.map_nil,
    and_shift_mask]
  norm_num

theorem shiftRight_eight (c : Nat) : c >>> 8 = c / 256 := by
  rw [Nat.shiftRight_eq_div_pow]

theorem inner_fold_eq (gk : List Nat) (data_size c0 : Nat) :
    (List.range 4).foldl (fun c j =>
        ((split_by gk 4).map COMBINE_BYTES).getD
          (CAST_TO_CHAR (c ^^^ (SPLIT_TO_BYTES (ROTL (c0 + data_size) 8)).getD j 0)) 0
          ^^^ (c >>> 8)) c0
      = schedule_round data_size (word_at gk) (fun v => ROTL v 8) c0 := by
  have hr : List.range 4 = [0, 1, 2, 3] := rfl
  rw [hr]
  simp only [List.foldl_cons, List.foldl_nil, schedule_round, getD_split_map,
    CAST_TO_CHAR_eq_mod, shiftRight_eight, SPLIT_TO_BYTES_eq_le_bytes]

theorem iterate_two (f : Nat → Nat) (x : Nat) : f^[2] x = f (f x) := by
  rw [show (2 : Nat) = 1 + 1 from rfl, Function.iterate_succ_apply',
    Function.iterate_one]

theorem iterate_three (f : Nat → Nat) (x : Nat) : f^[3] x = f (f (f x)) := by
  rw [show (3 : Nat) = 2 + 1 from rfl, Function.iterate_succ_apply', iterate_two]

theorem iterate_four (f : Nat → Nat) (x : Nat) : f^[4] x = f (f (f (f x))) := by
  rw [show (4 : Nat) = 3 + 1 from rfl, Function.iterate_succ_apply', iterate_three]

theorem block_fold_eq (gk : List Nat) (data_size c0 i : Nat) (A : List Nat) :
    ((List.range 4).foldl (fun st b =>
        let bytes := SPLIT_TO_BYTES (ROTL (st.1 + data_size) 8)
        let c := (List.range 4).foldl (fun c j =>
          ((split_by gk 4).map COMBINE_BYTES).getD
            (CAST_TO_CHAR (c ^^^ bytes.getD j 0)) 0 ^^^ (c >>> 8)) st.1
        (c, st.2.set (i + b) (CAST_TO_CHAR c))) ((c0 : Nat), A)).2
    = ((((A.set i
        (schedule_round data_size (word_at gk) (fun v => ROTL v 8) c0 % 256)).set (i + 1)
        ((schedule_round data_size (word_at gk) (fun v => ROTL v 8))^[2] c0 % 256)).set (i + 2)
        ((schedule_round data_size (word_at gk) (fun v => ROTL v 8))^[3] c0 % 256)).set (i + 3)
        ((schedule_round data_size (word_at gk) (fun v => ROTL v 8))^[4] c0 % 256)) := by
  simp only [inner_fold_eq]
  have hr : List.range 4 = [0, 1, 2, 3] := rfl
  rw [hr, iterate_two, iterate_three, iterate_four]
  simp only [List.foldl_cons, List.foldl_nil, CAST_TO_CHAR_eq_mod, Nat.add_zero]

theorem set_append_of_le {α : Type} (s t : List α) (i : Nat) (x : α)
    (h : s.length ≤ i) : (s ++ t).set i x = s ++ t.set (i - s.length) x := by
  rw [List.set_append, if_neg (by omega)]

theorem outer_fold_general (g : Nat → Nat → Nat) (step : List Nat → Nat → List Nat)
    (hstep : ∀ (A : List Nat) (blk : Nat),
      step A blk = (((A.set (4 * blk) (g blk 1)).set (4 * blk + 1) (g blk 2)).set
        (4 * blk + 2) (g blk 3)).set (4 * blk + 3) (g blk 4))
    (n : Nat) :
    ∀ k, k ≤ n →
      (List.range k).foldl step (List.replicate (4 * n) 0)
        = (List.range (4 * k)).map (fun p => g (p / 4) (p % 4 + 1))
          ++ List.replicate (4 * n - 4 * k) 0 := by
  intro k
  induction k with
  | zero => simp
  | succ k ih =>
    intro hk
    rw [List.range_succ, List.foldl_append, ih (by omega)]
    simp only [List.foldl_cons, List.foldl_nil]
    rw [hstep]
    have hplen : ((List.range (4 * k)).map (fun p => g (p / 4) (p % 4 + 1))).length
        = 4 * k := by simp
    have hrep : List.replicate (4 * n - 4 * k) (0 : Nat)
        = 0 :: 0 :: 0 :: 0 :: List.replicate (4 * n - 4 * (k + 1)) 0 := by
      rw [show 4 * n - 4 * k = 4 + (4 * n - 4 * (k + 1)) by omega, List.replicate_add]
      rfl
    rw [set_append_of_le _ _ _ _ (by omega), set_append_of_le _ _ _ _ (by omega),
      set_append_of_le _ _ _ _ (by omega), set_append_of_le _ _ _ _ (by omega),
      hplen, hrep]
    rw [show 4 * k - 4 * k = 0 by omega, show 4 * k + 1 - 4 * k = 1 by omega,
      show 4 * k + 2 - 4 * k = 2 by omega, show 4 * k + 3 - 4 * k = 3 by omega]
    simp only [List.set_cons_zero, List.set_cons_succ]
    rw [show 4 * (k + 1) = 4 * k + 4 by omega, List.range_add]
    simp only [List.map_append, List.map_map]
    rw [List.append_assoc]
    congr 1
    have h0 : (4 * k + 0) / 4 = k := by omega
    have h0m : (4 * k + 0) % 4 = 0 := by omega
    have h1 : (4 * k + 1) / 4 = k := by omega
    have h1m : (4 * k + 1) % 4 = 1 := by omega
    have h2 : (4 * k + 2) / 4 = k := by omega
    have h2m : (4 * k + 2) % 4 = 2 := by omega
    have h3 : (4 * k + 3) / 4 = k := by omega
    have h3m : (4 * k + 3) % 4 = 3 := by omega
    simp only [show List.range 4 = [0, 1, 2, 3] from rfl, List.map_cons,
      List.map_nil, Function.comp_apply, h0, h0m, h1, h1m, h2, h2m, h3, h3m,
      List.cons_append, List.nil_append, Nat.add_zero]
    rw [show 4 * k / 4 = k by omega, show 4 * k % 4 = 0 by omega]

theorem combine_keys_eq_key_schedule_aux (data_size : Nat) (lk gk : List Nat)
    (n : Nat) (hlen : lk.length = 4 * n) :
    combine_keys data_size lk gk
      = key_schedule data_size lk gk (fun v => ROTL v 8) := by
  have hmain := outer_fold_general
    (fun blk m => (schedule_round data_size (word_at gk) (fun v => ROTL v 8))^[m]
        (word_at lk blk) % 256)
    (fun combined_key blk =>
      let i := 4 * blk
      let c0 := ((split_by lk 4).map COMBINE_BYTES).getD (i / 4) 0
      ((List.range 4).foldl (fun st b =>
        let bytes := SPLIT_TO_BYTES (ROTL (st.1 + data_size) 8)
        let c := (List.range 4).foldl (fun c j =>
          ((split_by gk 4).map COMBINE_BYTES).getD
            (CAST_TO_CHAR (c ^^^ bytes.getD j 0)) 0 ^^^ (c >>> 8)) st.1
        (c, st.2.set (i + b) (CAST_TO_CHAR c))) (c0, combined_key)).2)
    ?hstep n n (le_refl n)
  case hstep =>
    intro A blk
    simp only [block_fold_eq]
    rw [show 4 * blk / 4 = blk by omega, getD_split_map, Function.iterate_one]
  simp only [combine_keys, key_schedule]
  rw [hlen, show (4 * n + 3) / 4 = n by omega, hmain]
  simp

/-- Claim C1 (counterexample): with `data_size = 1` and local key
`FF FF FF FF`, the sum `c + data_size` reaches `2 ^ 32`, the untruncated
`ROTL` of the code leaks the carry bit into byte 1 of the decomposition,
and the combined key differs from the one the claim predicts with a true
32-bit rotate-left, even though the local key is a positive multiple of
4 bytes long and the global key supplies 256 words. -/
theorem combine_keys_rotl32_counterexample :
    0 < ([255, 255, 255, 255] : List Nat).length ∧
    ([255, 255, 255, 255] : List Nat).length % 4 = 0 ∧
    1024 ≤ cexGlobal.length ∧
    combine_keys 1 [255, 255, 255, 255] cexGlobal
      ≠ key_schedule 1 [255, 255, 255, 255] cexGlobal rotl32 :=
  ⟨by decide, by decide, by decide, by decide⟩

/-- Claim C1 (amended): for every `data_size`, every local key whose
byte length is a positive multiple of 4, and every global key of at
least 256 little-endian 32-bit words, `_combine_keys` produces a
combined key of the local key's length whose byte `p` is the low byte
of `p % 4 + 1` sub-rounds applied to local word `p / 4`, where each
sub-round decomposes `((c + data_size) <<< 8) ||| ((c + data_size) >>> 24)`
computed without truncation to 32 bits (this coincides with the 32-bit
rotate-left by 8 whenever `c + data_size < 2 ^ 32`) into 4 little-endian
bytes and runs the 4 inner substitution rounds
`c = global_word[low_byte(c XOR byte_j)] XOR (c >> 8)`. -/
theorem combine_keys_eq_key_schedule (data_size : Nat)
    (local_key global_key : List Nat) (hpos : 0 < local_key.length)
    (hmul : local_key.length % 4 = 0) (hglob : 1024 ≤ global_key.length) :
    combine_keys data_size local_key global_key
      = key_schedule data_size local_key global_key (fun v => ROTL v 8) :=
  combine_keys_eq_key_schedule_aux data_size local_key global_key
    (local_key.length / 4) (by omega)

/-- Claim C1 witness: the amended claim evaluated at a concrete
instance. -/
theorem combine_keys_eq_key_schedule_witness :
    combine_keys 5 [1, 2, 3, 4] cexGlobal
      = key_schedule 5 [1, 2, 3, 4] cexGlobal (fun v => ROTL v 8) :=
  combine_keys_eq_key_schedule 5 [1, 2, 3, 4] cexGlobal (by decide) (by decide)
    (by decide)

theorem and255_eq_mod (x : Nat) : 0xFF &&& x = x % 256 := by
  rw [Nat.and_comm]
  have h := CAST_TO_CHAR_eq_mod x
  simpa [CAST_TO_CHAR] using h

/-- Concrete cipher state used by the cipher counterexamples: key size
1, single combined key byte 1. -/
def cexCrypt : GearboxCrypt := ⟨4096, 0, 1, [1]⟩

/-- Claim C2 (counterexample): `encrypt` does not add the keystream.
Encrypting the single byte 0 against key byte 1 yields 255, which is
(0 - 1) mod 256, not (0 + 1) mod 256 = 1 as the claim states. -/
theorem encrypt_addition_counterexample :
    ¬ ((cexCrypt.encrypt [0] 0).getD 0 0
        = (([0] : List Nat).getD 0 0
            + cexCrypt.encryption_key.getD ((0 + 0) % cexCrypt.key_size) 0) % 256) := by
  decide

/-- Claim C2 (amended): the cipher direction is the reverse of the
claimed one.  For every byte position `p` of the data,
`encrypt` produces `ciphertext[p] = (plaintext[p] - keystream[p]) mod 256`
and `decrypt` produces `plaintext[p] = (ciphertext[p] + keystream[p]) mod 256`,
where `keystream[p] = combined_key[(offset + p) mod key_size]`. -/
theorem encrypt_decrypt_pointwise (g : GearboxCrypt) (data : List Nat)
    (offset p : Nat) (hp : p < data.length) :
    (g.encrypt data offset).getD p 0
      = (((data.getD p 0 : Int)
          - g.encryption_key.getD ((offset + p) % g.key_size) 0) % 256).toNat ∧
    (g.decrypt data offset).getD p 0
      = (data.getD p 0
          + g.encryption_key.getD ((offset + p) % g.key_size) 0) % 256 := by
  have hel : p < (g.encrypt data offset).length := by
    simp [GearboxCrypt.encrypt, GearboxCrypt.key_stream, hp]
  have hdl : p < (g.decrypt data offset).length := by
    simp [GearboxCrypt.decrypt, GearboxCrypt.key_stream, hp]
  constructor
  · rw [List.getD_eq_getElem _ _ hel, List.getD_eq_getElem _ _ hp]
    simp [GearboxCrypt.encrypt, GearboxCrypt.key_stream, List.getElem_zipWith,
      List.getElem_map, List.getElem_range']
  · rw [List.getD_eq_getElem _ _ hdl, List.getD_eq_getElem _ _ hp]
    simp [GearboxCrypt.decrypt, GearboxCrypt.key_stream, List.getElem_zipWith,
      List.getElem_map, List.getElem_range', and255_eq_mod]

/-- Claim C2 witness: the amended pointwise formulas at a concrete
instance. -/
theorem encrypt_decrypt_pointwise_witness :
    (cexCrypt.encrypt [5] 0).getD 0 0
      = (((([5] : List Nat).getD 0 0 : Int)
          - cexCrypt.encryption_key.getD ((0 + 0) % cexCrypt.key_size) 0) % 256).toNat ∧
    (cexCrypt.decrypt [5] 0).getD 0 0
      = (([5] : List Nat).getD 0 0
          + cexCrypt.encryption_key.getD ((0 + 0) % cexCrypt.key_size) 0) % 256 :=
  encrypt_decrypt_pointwise cexCrypt [5] 0 0 (by decide)

/-- Claim C3: for every cipher state, byte sequence and offset,
decrypting an encryption at the same offset returns the original data;
the encrypt step subtracts the keystream byte mod 256 and the decrypt
step adds it back mod 256. -/
theorem decrypt_encrypt_roundtrip (g : GearboxCrypt) (data : List Nat)
    (offset : Nat) (h : ∀ b ∈ data, b < 256) :
    g.decrypt (g.encrypt data offset) offset = data := by
  have hlen : (g.encrypt data offset).length = data.length := by
    simp [GearboxCrypt.encrypt, GearboxCrypt.key_stream]
  apply List.ext_getElem
  · simp [GearboxCrypt.decrypt, GearboxCrypt.key_stream, hlen]
  · intro p h1 h2
    have hd : data[p] < 256 := h data[p] (List.getElem_mem h2)
    simp only [GearboxCrypt.decrypt, GearboxCrypt.encrypt, GearboxCrypt.key_stream,
      List.getElem_zipWith, List.getElem_map, List.getElem_range', hlen,
      and255_eq_mod, one_mul]
    omega

/-- Claim C3 witness: the inverse law at a concrete instance. -/
theorem decrypt_encrypt_roundtrip_witness :
    cexCrypt.decrypt (cexCrypt.encrypt [0, 17, 255] 6) 6 = [0, 17, 255] :=
  decrypt_encrypt_roundtrip cexCrypt [0, 17, 255] 6 (by decide)

theorem key_stream_append (g : GearboxCrypt) (a b offset : Nat) :
    g.key_stream (a + b) offset
      = g.key_stream a offset ++ g.key_stream b (offset + a) := by
  unfold GearboxCrypt.key_stream
  rw [show a + b = b + a by omega, ← List.range'_append, List.map_append, one_mul]

theorem decrypt_append (g : GearboxCrypt) (l1 l2 : List Nat) (offset : Nat) :
    g.decrypt (l1 ++ l2) offset
      = g.decrypt l1 offset ++ g.decrypt l2 (offset + l1.length) := by
  unfold GearboxCrypt.decrypt
  rw [List.length_append, key_stream_append,
    List.zipWith_append _ _ _ _ _ (by simp [GearboxCrypt.key_stream])]

theorem encrypt_append (g : GearboxCrypt) (l1 l2 : List Nat) (offset : Nat) :
    g.encrypt (l1 ++ l2) offset
      = g.encrypt l1 offset ++ g.encrypt l2 (offset + l1.length) := by
  unfold GearboxCrypt.encrypt
  rw [List.length_append, key_stream_append,
    List.zipWith_append _ _ _ _ _ (by simp [GearboxCrypt.key_stream])]

theorem decrypt_stream_loop_eq_aux (g : GearboxCrypt) (h : 1 ≤ g.chunk_size) :
    ∀ (n : Nat) (data : List Nat) (offset : Nat), data.length ≤ n →
      g.decrypt_stream_loop data offset = g.decrypt data offset := by
  intro n
  induction n with
  | zero =>
    intro data offset hle
    have hnil : data = [] := List.eq_nil_of_length_eq_zero (by omega)
    subst hnil
    rw [GearboxCrypt.decrypt_stream_loop]
    simp [GearboxCrypt.decrypt]
  | succ n ih =>
    intro data offset hle
    rw [GearboxCrypt.decrypt_stream_loop]
    by_cases hd : data = [] ∨ g.chunk_size = 0
    · rw [dif_pos hd]
      have hdata : data = [] := by
        rcases hd with h1 | h1
        · exact h1
        · omega
      subst hdata
      simp [GearboxCrypt.decrypt]
    · rw [dif_neg hd]
      push_neg at hd
      have hlen : (data.drop g.chunk_size).length ≤ n := by
        rcases data with _ | ⟨a, rest⟩
        · exact absurd rfl hd.1
        · simp only [List.length_drop, List.length_cons] at hle ⊢
          omega
      rw [ih _ _ hlen]
      conv_rhs => rw [← List.take_append_drop g.chunk_size data]
      rw [decrypt_append]

theorem encrypt_stream_loop_eq_aux (g : GearboxCrypt) (h : 1 ≤ g.chunk_size) :
    ∀ (n : Nat) (data : List Nat) (offset : Nat), data.length ≤ n →
      g.encrypt_stream_loop data offset = g.encrypt data offset := by
  intro n
  induction n with
  | zero =>
    intro data offset hle
    have hnil : data = [] := List.eq_nil_of_length_eq_zero (by omega)
    subst hnil
    rw [GearboxCrypt.encrypt_stream_loop]
    simp [GearboxCrypt.encrypt]
  | succ n ih =>
    intro data offset hle
    rw [GearboxCrypt.encrypt_stream_loop]
    by_cases hd : data = [] ∨ g.chunk_size = 0
    · rw [dif_pos hd]
      have hdata : data = [] := by
        rcases hd with h1 | h1
        · exact h1
        · omega
      subst hdata
      simp [GearboxCrypt.encrypt]
    · rw [dif_neg hd]
      push_neg at hd
      have hlen : (data.drop g.chunk_size).length ≤ n := by
        rcases data with _ | ⟨a, rest⟩
        · exact absurd rfl hd.1
        · simp only [List.length_drop, List.length_cons] at hle ⊢
          omega
      rw [ih _ _ hlen]
      conv_rhs => rw [← List.take_append_drop g.chunk_size data]
      rw [encrypt_append]

/-- Claim C7: for every cipher state with a chunk size of at least 1,
every input byte stream, starting position and offset, the concatenated
output of the streaming decrypt (resp. streaming encrypt) equals the
single-call decrypt (resp. encrypt) of the whole remaining input keyed
at the offset plus the input position, independent of the chunk size. -/
theorem stream_eq_single_call (g : GearboxCrypt) (input : List Nat)
    (pos offset : Nat) (h : 1 ≤ g.chunk_size) :
    g.decrypt_stream input pos offset = g.decrypt (input.drop pos) (offset + pos) ∧
    g.encrypt_stream input pos offset = g.encrypt (input.drop pos) (offset + pos) :=
  ⟨decrypt_stream_loop_eq_aux g h (input.drop pos).length (input.drop pos)
      (offset + pos) (le_refl _),
    encrypt_stream_loop_eq_aux g h (input.drop pos).length (input.drop pos)
      (offset + pos) (le_refl _)⟩

/-- Claim C7 witness: the streaming laws at a concrete instance. -/
theorem stream_eq_single_call_witness :
    cexCrypt.decrypt_stream [1, 2, 3] 1 5
        = cexCrypt.decrypt (([1, 2, 3] : List Nat).drop 1) (5 + 1) ∧
    cexCrypt.encrypt_stream [1, 2, 3] 1 5
        = cexCrypt.encrypt (([1, 2, 3] : List Nat).drop 1) (5 + 1) :=
  stream_eq_single_call cexCrypt [1, 2, 3] 1 5 (by decide)

/-!
Trailer protocol of `GearboxEncryptedBigFile._load_encryption` from
`naabal/formats/big/__init__.py`.  The file is a byte list; `read`
calls become drop/take slices at the current position, a short buffer
handed to `struct.unpack` becomes a `structUnpackError`, an invalid
seek becomes `seekOutOfRange`, and the three explicit
`GearboxEncryptionException` raises keep their meaning.
-/

/-- Failure outcomes of `_load_encryption`. -/
inductive LoadError
  | seekOutOfRange
  | structUnpackError
  | invalidMarkerOffset
  | unexpectedMarker
  | invalidKeySize
deriving DecidableEq, Repr

/-- Which failure outcomes correspond to the
`GearboxEncryptionException` raises in the source; a failed seek or a
short `struct.unpack` buffer raises a different exception type. -/
def LoadError.isGearboxEncryptionException : LoadError → Bool
  | .invalidMarkerOffset => true
  | .unexpectedMarker => true
  | .invalidKeySize => true
  | _ => false

/-- Class attribute `ENCRYPTION_KEY_MARKER` of
`GearboxEncryptedBigFile`. -/
def ENCRYPTION_KEY_MARKER : Nat := 0x00000000

/-- Class attribute `ENCRYPTION_KEY_MAX_SIZE` of
`GearboxEncryptedBigFile`. -/
def ENCRYPTION_KEY_MAX_SIZE : Nat := 1024

/-- Embedding of `GearboxEncryptedBigFile._load_encryption`: seek 4
bytes back from EOF, read the marker offset, bound-check it, seek back
by it, read and check the 4-byte marker and the 2-byte key length, read
the local key and construct the cipher. -/
def load_encryption (file master_key : List Nat) : Except LoadError GearboxCrypt :=
  if file.length < 4 then .error .seekOutOfRange
  else
    let last_int_loc := file.length - 4
    let marker_offset := COMBINE_BYTES ((file.drop last_int_loc).take 4)
    if (marker_offset : Int) < (last_int_loc : Int) - 6 then
      if (file.length : Int) - (marker_offset : Int) < 0 then .error .seekOutOfRange
      else
        let encrypted_data_size := file.length - marker_offset
        let markerBytes := (file.drop encrypted_data_size).take 4
        if markerBytes.length ≠ 4 then .error .structUnpackError
        else
          let marker := COMBINE_BYTES markerBytes
          if marker = ENCRYPTION_KEY_MARKER then
            let keyLenBytes := (file.drop (encrypted_data_size + 4)).take 2
            if keyLenBytes.length ≠ 2 then .error .structUnpackError
            else
              let encryption_key_bytes := COMBINE_BYTES keyLenBytes
              if encryption_key_bytes ≤ ENCRYPTION_KEY_MAX_SIZE then
                let local_encryption_key :=
                  (file.drop (encrypted_data_size + 6)).take encryption_key_bytes
                .ok (GearboxCrypt.init encrypted_data_size local_encryption_key
                  master_key 4096)
              else .error .invalidKeySize
          else .error .unexpectedMarker
    else .error .invalidMarkerOffset

/-- Embedding of the assignment
`self._crypto = self._load_encryption()` inside
`GearboxEncryptedBigFile.load`: a raised exception propagates and the
attribute keeps its previous value. -/
def load_encryption_state (old : Option GearboxCrypt)
    (file master_key : List Nat) : Option GearboxCrypt :=
  match load_encryption file master_key with
  | .ok g => some g
  | .error _ => old

/-- The unsigned 32-bit little-endian integer stored in the last 4
bytes of a file (the trailer back-pointer). -/
def backptr (file : List Nat) : Nat :=
  COMBINE_BYTES (file.drop (file.length - 4))

/-- The 4-byte little-endian marker located at `EOF - backptr`. -/
def marker_field (file : List Nat) : Nat :=
  COMBINE_BYTES ((file.drop (file.length - backptr file)).take 4)

/-- The 2-byte little-endian key length following the marker. -/
def declared_key_len (file : List Nat) : Nat :=
  COMBINE_BYTES ((file.drop (file.length - backptr file + 4)).take 2)

/-- The declared number of key bytes immediately after the marker and
key-length fields. -/
def local_key_field (file : List Nat) : List Nat :=
  (file.drop (file.length - backptr file + 6)).take (declared_key_len file)

/-- Claim C4: whenever `_load_encryption` returns without error, with
`backptr` the unsigned 32-bit little-endian integer in the last 4 bytes,
the cipher is constructed as
`GearboxCrypt(EOF - backptr, local key bytes after the marker and
key-length fields, master_key)`, so its stored `data_size` (the
computed encrypted region size) is `EOF - backptr`. -/
theorem load_encryption_success_spec (file master_key : List Nat)
    (g : GearboxCrypt) (h : load_encryption file master_key = .ok g) :
    g = GearboxCrypt.init (file.length - backptr file) (local_key_field file)
        master_key 4096 ∧
    g.data_size = file.length - backptr file := by
  simp only [load_encryption] at h
  split at h
  next hlt => exact absurd h (by simp)
  next h4 =>
  have htake : (file.drop (file.length - 4)).take 4 = file.drop (file.length - 4) :=
    List.take_of_length_le (by rw [List.length_drop]; omega)
  rw [htake] at h
  split at h
  next hguard =>
    split at h
    next hseek => exact absurd h (by simp)
    next hseek =>
    split at h
    next hmb => exact absurd h (by simp)
    next hmb =>
    split at h
    next hmarker =>
      split at h
      next hkl => exact absurd h (by simp)
      next hkl =>
      split at h
      next hsize =>
        rw [Except.ok.injEq] at h
        subst h
        refine ⟨rfl, ?_⟩
        simp [GearboxCrypt.init, backptr]
      next hsize => exact absurd h (by simp)
    next hmarker => exact absurd h (by simp)
  next hguard => exact absurd h (by simp)

/-- Concrete 25-byte encrypted file for the C4 witness: 11 payload
bytes, a zero marker, key length 4, key bytes 1 2 3 4, and a
back-pointer of 14. -/
def okFile : List Nat :=
  List.replicate 11 7 ++ [0, 0, 0, 0] ++ [4, 0] ++ [1, 2, 3, 4] ++ [14, 0, 0, 0]

/-- Claim C4 witness: the success protocol at a concrete file. -/
theorem load_encryption_success_spec_witness :
    GearboxCrypt.init 11 [1, 2, 3, 4] [9] 4096
        = GearboxCrypt.init (okFile.length - backptr okFile)
            (local_key_field okFile) [9] 4096 ∧
    (GearboxCrypt.init 11 [1, 2, 3, 4] [9] 4096).data_size
        = okFile.length - backptr okFile :=
  load_encryption_success_spec okFile [9] _ rfl

/-- Concrete 12-byte file for the C5 counterexample: eight payload
bytes and a zero back-pointer. -/
def shortTrailerFile : List Nat := List.replicate 8 1 ++ [0, 0, 0, 0]

/-- Claim C5 (counterexample): the last 4 bytes of this 12-byte file
decode to back-pointer 0, placing the marker at EOF itself — within 6
bytes of EOF.  Opening fails, but with a struct unpack error (the
4-byte marker read returns no bytes), not with the claimed
`GearboxEncryptionException`. -/
theorem trailer_rejection_counterexample :
    backptr shortTrailerFile ≤ 6 ∧
    load_encryption shortTrailerFile [] = .error .structUnpackError ∧
    LoadError.structUnpackError.isGearboxEncryptionException = false :=
  ⟨by decide, rfl, rfl⟩

/-- Claim C5 (amended): for every file of at least 4 bytes whose
back-pointer fails the bound check `backptr < (EOF - 4) - 6` (the
code's actual guard), or whose 4-byte marker at `EOF - backptr` exists
in the file (`backptr ≥ 4`) and is not `0x00000000`, or whose declared
key length exists in the file (`backptr ≥ 6`) and exceeds 1024,
`_load_encryption` fails with a `GearboxEncryptionException` and the
stored crypto state is unchanged. -/
theorem trailer_rejection_amended (file master_key : List Nat)
    (old : Option GearboxCrypt) (h4 : 4 ≤ file.length)
    (hcond : ¬ ((backptr file : Int) < (file.length : Int) - 10) ∨
      (4 ≤ backptr file ∧ marker_field file ≠ 0) ∨
      (6 ≤ backptr file ∧ 1024 < declared_key_len file)) :
    (∃ e, load_encryption file master_key = .error e ∧
        e.isGearboxEncryptionException = true) ∧
    load_encryption_state old file master_key = old := by
  have hmain : ∃ e, load_encryption file master_key = .error e ∧
      e.isGearboxEncryptionException = true := by
    simp only [load_encryption]
    rw [if_neg (by omega)]
    have htake : (file.drop (file.length - 4)).take 4
        = file.drop (file.length - 4) :=
      List.take_of_length_le (by rw [List.length_drop]; omega)
    rw [htake,
      show COMBINE_BYTES (file.drop (file.length - 4)) = backptr file from rfl]
    by_cases hguard : (backptr file : Int) < ((file.length - 4 : Nat) : Int) - 6
    · have hbp : backptr file + 10 < file.length := by omega
      rw [if_pos hguard, if_neg (by omega)]
      rcases hcond with hc1 | ⟨hbp4, hm⟩ | ⟨hbp6, hkl⟩
      · exact absurd (by omega) hc1
      · have hmblen : ((file.drop (file.length - backptr file)).take 4).length = 4 := by
          rw [List.length_take, List.length_drop]
          omega
        rw [if_neg (by rw [hmblen]; omega),
          show COMBINE_BYTES ((file.drop (file.length - backptr file)).take 4)
            = marker_field file from rfl,
          if_neg (by simpa [ENCRYPTION_KEY_MARKER] using hm)]
        exact ⟨_, rfl, rfl⟩
      · have hmblen : ((file.drop (file.length - backptr file)).take 4).length = 4 := by
          rw [List.length_take, List.length_drop]
          omega
        rw [if_neg (by rw [hmblen]; omega),
          show COMBINE_BYTES ((file.drop (file.length - backptr file)).take 4)
            = marker_field file from rfl]
        by_cases hm0 : marker_field file = ENCRYPTION_KEY_MARKER
        · rw [if_pos hm0]
          have hkllen : ((file.drop (file.length - backptr file + 4)).take 2).length
              = 2 := by
            rw [List.length_take, List.length_drop]
            omega
          rw [if_neg (by rw [hkllen]; omega),
            show COMBINE_BYTES ((file.drop (file.length - backptr file + 4)).take 2)
              = declared_key_len file from rfl,
            if_neg (by simp only [ENCRYPTION_KEY_MAX_SIZE]; omega)]
          exact ⟨_, rfl, rfl⟩
        · rw [if_neg hm0]
          exact ⟨_, rfl, rfl⟩
    · rw [if_neg hguard]
      exact ⟨_, rfl, rfl⟩
  refine ⟨hmain, ?_⟩
  obtain ⟨e, he, _⟩ := hmain
  simp [load_encryption_state, he]

/-- Claim C5 witness: a file with a nonzero marker is rejected with an
encryption-format error and the crypto state stays `none`. -/
theorem trailer_rejection_amended_witness :
    (∃ e, load_encryption
        (List.replicate 11 7 ++ [9, 9, 9, 9] ++ [4, 0] ++ [1, 2, 3, 4]
          ++ [14, 0, 0, 0]) [] = .error e ∧
      e.isGearboxEncryptionException = true) ∧
    load_encryption_state none
        (List.replicate 11 7 ++ [9, 9, 9, 9] ++ [4, 0] ++ [1, 2, 3, 4]
          ++ [14, 0, 0, 0]) [] = none :=
  trailer_rejection_amended _ [] none (by decide)
    (Or.inr (Or.inl ⟨by decide, by decide⟩))

/-- Modelled from the spec: the bounded sub-file view collaborator
(`FileInFile` from `naabal.util.file_io`, not among the sources)
exposes a file-like read surface over a byte range; a read at a
position returns at most `size` bytes from there, or the rest of the
range when no size is given. -/
def handle_read (handle : List Nat) (pos : Nat) (size : Option Nat) : List Nat :=
  match size with
  | none => handle.drop pos
  | some s => (handle.drop pos).take s

/-- Embedding of `GearboxEncryptedBigFile._read_encrypted`: read `size`
bytes from the underlying handle and decrypt them keyed at the current
absolute offset. -/
def GearboxEncryptedBigFile.read_encrypted (g : GearboxCrypt)
    (handle : List Nat) (offset size : Nat) : List Nat :=
  g.decrypt (handle_read handle offset (some size)) offset

/-- Embedding of `GearboxEncryptedBigFile.read` once the key is loaded:
a read starting below `data_size` is clamped so it cannot cross the
`data_size` boundary and routed through the decrypting read; a read at
or past `data_size` passes through to the underlying handle
unmodified. -/
def GearboxEncryptedBigFile.read (g : GearboxCrypt) (handle : List Nat)
    (cur_pos : Nat) (size : Option Nat) : List Nat :=
  if cur_pos < g.data_size then
    let sz := match size with
      | none => g.data_size - cur_pos
      | some s => if cur_pos + s > g.data_size then g.data_size - cur_pos else s
    GearboxEncryptedBigFile.read_encrypted g handle cur_pos sz
  else handle_read handle cur_pos size

/-- Claim C6: for a loaded cipher, a read of `s` bytes at position
`p < data_size` returns exactly the decryption, keyed by the absolute
offset `p`, of the underlying bytes in `[p, min(p + s, data_size))` —
clamped at the `data_size` boundary — and a read at `p ≥ data_size`
returns the underlying handle bytes unmodified. -/
theorem encrypted_read_spec (g : GearboxCrypt) (handle : List Nat) (p s : Nat) :
    (p < g.data_size →
      GearboxEncryptedBigFile.read g handle p (some s)
        = g.decrypt ((handle.take (min (p + s) g.data_size)).drop p) p) ∧
    (g.data_size ≤ p →
      GearboxEncryptedBigFile.read g handle p (some s)
        = handle_read handle p (some s)) := by
  constructor
  · intro hp
    unfold GearboxEncryptedBigFile.read
    rw [if_pos hp]
    show GearboxEncryptedBigFile.read_encrypted g handle p
        (if p + s > g.data_size then g.data_size - p else s) = _
    unfold GearboxEncryptedBigFile.read_encrypted handle_read
    rw [List.drop_take,
      show (if p + s > g.data_size then g.data_size - p else s)
        = min (p + s) g.data_size - p by split <;> omega]
  · intro hp
    unfold GearboxEncryptedBigFile.read
    rw [if_neg (by omega)]

/-- Cipher state with `data_size = 4` for the C6 witness. -/
def readCrypt : GearboxCrypt := ⟨4096, 4, 1, [1]⟩

/-- Claim C6 witness: both read branches at concrete positions. -/
theorem encrypted_read_spec_witness :
    GearboxEncryptedBigFile.read readCrypt [10, 20, 30, 40, 50, 60] 1 (some 5)
        = readCrypt.decrypt
            ((([10, 20, 30, 40, 50, 60] : List Nat).take
              (min (1 + 5) readCrypt.data_size)).drop 1) 1 ∧
    GearboxEncryptedBigFile.read readCrypt [10, 20, 30, 40, 50, 60] 5 (some 5)
        = handle_read [10, 20, 30, 40, 50, 60] 5 (some 5) :=
  ⟨(encrypted_read_spec readCrypt [10, 20, 30, 40, 50, 60] 1 5).1 (by decide),
    (encrypted_read_spec readCrypt [10, 20, 30, 40, 50, 60] 5 5).2 (by decide)⟩

/-!
Archive model from `naabal/formats/big/__init__.py`.  Member names are
byte strings (`List Nat`), matching Python 2 `str`, and the order used
by `_sort_members` is the bytewise lexicographic comparison of Python 2
strings.
-/

/-- Archive member metadata (`BigInfo`), with the attributes the
claims observe. -/
structure BigInfo where
  name : List Nat
  mtime : Nat
  real_size : Nat
  stored_size : Nat
  offset : Nat
deriving DecidableEq, Repr

/-- The `BigInfo.is_compressed` property: real size strictly above
stored size. -/
def BigInfo.is_compressed (m : BigInfo) : Bool :=
  decide (m.stored_size < m.real_size)

/-- Bytewise lexicographic comparison of names, the Python 2 `str`
order used by `list.sort(key=lambda m: m.name)`. -/
def name_le : List Nat → List Nat → Bool
  | [], _ => true
  | _ :: _, [] => false
  | a :: as, b :: bs => if a < b then true else if b < a then false else name_le as bs

theorem name_le_total (a b : List Nat) : (name_le a b || name_le b a) = true := by
  induction a generalizing b with
  | nil => simp [name_le]
  | cons x xs ih =>
    cases b with
    | nil => simp [name_le]
    | cons y ys =>
      simp only [name_le]
      rcases Nat.lt_trichotomy x y with h | h | h
      · simp [h, Nat.lt_asymm h]
      · subst h
        simp only [lt_irrefl, if_false]
        exact ih ys
      · simp [h, Nat.lt_asymm h]

theorem name_le_trans : ∀ (a b c : List Nat), name_le a b = true →
    name_le b c = true → name_le a c = true := by
  intro a
  induction a with
  | nil => intro b c _ _; rfl
  | cons x xs ih =>
    intro b c hab hbc
    cases b with
    | nil => simp [name_le] at hab
    | cons y ys =>
      cases c with
      | nil => simp [name_le] at hbc
      | cons z zs =>
        simp only [name_le] at hab hbc ⊢
        by_cases h1 : x < y
        · by_cases h2 : y < z
          · rw [if_pos (by omega)]
          · by_cases h3 : z < y
            · rw [if_neg h2, if_pos h3] at hbc
              exact absurd hbc (by simp)
            · rw [if_pos (by omega)]
        · by_cases h4 : y < x
          · rw [if_neg h1, if_pos h4] at hab
            exact absurd hab (by simp)
          · have hxy : x = y := by omega
            subst hxy
            by_cases h2 : x < z
            · rw [if_pos h2]
            · by_cases h3 : z < x
              · rw [if_neg h2, if_pos h3] at hbc
                exact absurd hbc (by simp)
              · rw [if_neg h1, if_neg h4] at hab
                rw [if_neg h2, if_neg h3] at hbc
                rw [if_neg h2, if_neg h3]
                exact ih ys zs hab hbc

/-- Embedding of `BigFile._sort_members`: stable sort of the member
list by name (Python's stable `list.sort` modelled by the stable
`List.mergeSort`). -/
def BigFile.sort_members (members : List BigInfo) : List BigInfo :=
  members.mergeSort fun a b => name_le a.name b.name

/-- Embedding of `BigFile.get_filenames`: the member names in current
order. -/
def BigFile.get_filenames (members : List BigInfo) : List (List Nat) :=
  members.map BigInfo.name

/-- Embedding of `BigFile.add`: append the member, then re-sort unless
the sort is deferred. -/
def BigFile.add (members : List BigInfo) (biginfo : BigInfo)
    (sort_after : Bool) : List BigInfo :=
  let members := members ++ [biginfo]
  if sort_after then BigFile.sort_members members else members

/-- Embedding of `BigFile.add_all`: every discovered file is added with
the sort deferred, then one final sort runs. -/
def BigFile.add_all (members : List BigInfo) (found : List BigInfo) :
    List BigInfo :=
  BigFile.sort_members (found.foldl (fun ms m => BigFile.add ms m false) members)

/-- One archive mutation of claim C8: `add` with the default
`sort_after=True`, or `add_all` over the files found in a walk. -/
inductive ArchiveOp
  | add (m : BigInfo)
  | addAll (ms : List BigInfo)

/-- Application of one mutation to the member list. -/
def applyOp (members : List BigInfo) : ArchiveOp → List BigInfo
  | .add m => BigFile.add members m true
  | .addAll ms => BigFile.add_all members ms

/-- Application of a finite sequence of mutations. -/
def applyOps (members : List BigInfo) (ops : List ArchiveOp) : List BigInfo :=
  ops.foldl applyOp members

/-- The names introduced by one mutation. -/
def opNames : ArchiveOp → List (List Nat)
  | .add m => [m.name]
  | .addAll ms => ms.map BigInfo.name

theorem foldl_add_deferred (members found : List BigInfo) :
    found.foldl (fun ms m => BigFile.add ms m false) members
      = members ++ found := by
  induction found generalizing members with
  | nil => simp
  | cons m rest ih =>
    rw [List.foldl_cons, show BigFile.add members m false = members ++ [m] from rfl,
      ih]
    simp

theorem sort_members_sorted (l : List BigInfo) :
    (BigFile.sort_members l).Pairwise
      (fun a b => name_le a.name b.name = true) :=
  List.sorted_mergeSort
    (fun a b c hab hbc => name_le_trans a.name b.name c.name hab hbc)
    (fun a b => name_le_total a.name b.name) l

theorem applyOp_sorted (l : List BigInfo) (op : ArchiveOp) :
    (applyOp l op).Pairwise (fun a b => name_le a.name b.name = true) := by
  cases op with
  | add m =>
    simp only [applyOp, BigFile.add, if_pos rfl]
    exact sort_members_sorted _
  | addAll ms =>
    simp only [applyOp, BigFile.add_all]
    exact sort_members_sorted _

theorem applyOp_names_perm (l : List BigInfo) (op : ArchiveOp) :
    (BigFile.get_filenames (applyOp l op)).Perm
      (BigFile.get_filenames l ++ opNames op) := by
  cases op with
  | add m =>
    have hp := (List.mergeSort_perm (l ++ [m])
      (fun a b => name_le a.name b.name)).map BigInfo.name
    simpa [applyOp, BigFile.add, BigFile.get_filenames, BigFile.sort_members,
      opNames] using hp
  | addAll ms =>
    have hp := (List.mergeSort_perm (l ++ ms)
      (fun a b => name_le a.name b.name)).map BigInfo.name
    simpa [applyOp, BigFile.add_all, BigFile.get_filenames,
      BigFile.sort_members, opNames, foldl_add_deferred] using hp

/-- Claim C8: starting from a loaded (name-sorted) member list, after
any finite sequence of `add` (default `sort_after`) and `add_all`
operations, `get_filenames()` is lexicographically sorted and is a
permutation of the originally loaded names plus all added names — the
same multiset, so nothing is dropped and no duplicate is introduced. -/
theorem sort_invariant (init : List BigInfo) (ops : List ArchiveOp)
    (hsorted : init.Pairwise (fun a b => name_le a.name b.name = true)) :
    (BigFile.get_filenames (applyOps init ops)).Pairwise
        (fun a b => name_le a b = true) ∧
    (BigFile.get_filenames (applyOps init ops)).Perm
        (BigFile.get_filenames init ++ (ops.map opNames).flatten) := by
  induction ops generalizing init with
  | nil =>
    exact ⟨List.pairwise_map.mpr hsorted, by simp [applyOps]⟩
  | cons op rest ih =>
    have h1 := applyOp_sorted init op
    obtain ⟨ihs, ihp⟩ := ih (applyOp init op) h1
    refine ⟨by simpa [applyOps] using ihs, ?_⟩
    have step1 : (BigFile.get_filenames (applyOps init (op :: rest))).Perm
        (BigFile.get_filenames (applyOp init op) ++ (rest.map opNames).flatten) := by
      simpa [applyOps] using ihp
    have step2 : (BigFile.get_filenames (applyOp init op)
          ++ (rest.map opNames).flatten).Perm
        ((BigFile.get_filenames init ++ opNames op) ++ (rest.map opNames).flatten) :=
      (applyOp_names_perm init op).append_right _
    have step3 : (BigFile.get_filenames init ++ opNames op)
          ++ (rest.map opNames).flatten
        = BigFile.get_filenames init ++ ((op :: rest).map opNames).flatten := by
      simp [List.append_assoc]
    exact (step1.trans step2).trans (step3 ▸ List.Perm.refl _)

/-- Claim C8 witness: the invariant after one `add` and one `add_all`
on an initially empty archive. -/
theorem sort_invariant_witness :
    (BigFile.get_filenames (applyOps []
        [ArchiveOp.add ⟨[2], 0, 0, 0, 0⟩,
          ArchiveOp.addAll [⟨[1], 0, 0, 0, 0⟩]])).Pairwise
        (fun a b => name_le a b = true) ∧
    (BigFile.get_filenames (applyOps []
        [ArchiveOp.add ⟨[2], 0, 0, 0, 0⟩,
          ArchiveOp.addAll [⟨[1], 0, 0, 0, 0⟩]])).Perm
        (BigFile.get_filenames []
          ++ (([ArchiveOp.add ⟨[2], 0, 0, 0, 0⟩,
            ArchiveOp.addAll [⟨[1], 0, 0, 0, 0⟩]]).map opNames).flatten) :=
  sort_invariant [] [ArchiveOp.add ⟨[2], 0, 0, 0, 0⟩,
    ArchiveOp.addAll [⟨[1], 0, 0, 0, 0⟩]] List.Pairwise.nil

/-- Two `BigFile` instances under Python attribute-lookup semantics:
the class attribute `_members = []` is one shared mutable list, and an
instance gets its own `_members` only when `load` rebinds it.  `add`
calls `self._members.append`, mutating whichever list the lookup
finds. -/
structure BigFilePair where
  class_members : List BigInfo
  a_members : Option (List BigInfo)
  b_members : Option (List BigInfo)
deriving DecidableEq, Repr

/-- Member-list lookup for instance `a`: the instance attribute when
bound, else the class attribute. -/
def BigFilePair.membersA (w : BigFilePair) : List BigInfo :=
  w.a_members.getD w.class_members

/-- Member-list lookup for instance `b`. -/
def BigFilePair.membersB (w : BigFilePair) : List BigInfo :=
  w.b_members.getD w.class_members

/-- `a.add(biginfo)`: append and re-sort through the attribute lookup,
mutating the shared class list when instance `a` never rebound
`_members`. -/
def BigFilePair.addA (w : BigFilePair) (m : BigInfo) : BigFilePair :=
  match w.a_members with
  | some l => { w with a_members := some (BigFile.sort_members (l ++ [m])) }
  | none =>
    { w with class_members := BigFile.sort_members (w.class_members ++ [m]) }

/-- Claim C9 (code bug): two freshly constructed archives share the
class-level `_members` list, so adding a member through `a` changes
what `b` reports — member-list state is shared across instances that
have not rebound `_members`. -/
theorem shared_members_bug :
    BigFilePair.membersB
        (BigFilePair.addA ⟨[], none, none⟩ ⟨[7], 0, 0, 0, 0⟩)
      ≠ BigFilePair.membersB ⟨[], none, none⟩ := by
  intro hcontra
  have hlen := congrArg List.length hcontra
  simp [BigFilePair.membersB, BigFilePair.addA, BigFile.sort_members,
    List.length_mergeSort] at hlen

/-- Embedding of `ExternalBigInfo.load` as called through
`BigFile.get_biginfo`: a missing `alt_filename` reaches the
`alt_filename = filename` branch whose right-hand side is an undefined
variable (`NameError`), so no member is produced; otherwise the member
gets offset 0, the alternate name, the stat mtime, and the stat size
as both real and stored size. -/
def ExternalBigInfo.load (real_filename : List Nat)
    (alt_filename : Option (List Nat)) (st_size st_mtime : Nat) :
    Option BigInfo :=
  match alt_filename with
  | none => none
  | some alt =>
    some { name := alt, mtime := st_mtime, real_size := st_size,
           stored_size := st_size, offset := 0 }

/-- Claim C10: every member built from a filesystem path has offset 0
and real size equal to stored size (both the on-disk size), so it is
never reported as compressed. -/
theorem external_biginfo_uncompressed (real_filename : List Nat)
    (alt_filename : Option (List Nat)) (st_size st_mtime : Nat) (m : BigInfo)
    (h : ExternalBigInfo.load real_filename alt_filename st_size st_mtime
      = some m) :
    m.offset = 0 ∧ m.real_size = st_size ∧ m.stored_size = st_size ∧
      m.is_compressed = false := by
  cases alt_filename with
  | none => exact absurd h (by simp [ExternalBigInfo.load])
  | some alt =>
    simp only [ExternalBigInfo.load, Option.some.injEq] at h
    subst h
    exact ⟨rfl, rfl, rfl, by simp [BigInfo.is_compressed]⟩

/-- Claim C10 witness: loading a concrete 100-byte file. -/
theorem external_biginfo_uncompressed_witness :
    (⟨[5], 3, 100, 100, 0⟩ : BigInfo).offset = 0 ∧
    (⟨[5], 3, 100, 100, 0⟩ : BigInfo).real_size = 100 ∧
    (⟨[5], 3, 100, 100, 0⟩ : BigInfo).stored_size = 100 ∧
    (⟨[5], 3, 100, 100, 0⟩ : BigInfo).is_compressed = false :=
  external_biginfo_uncompressed [1] (some [5]) 100 3 _ rfl

end Naabal
